import Mathlib

/-!
Verification of the core algorithms of `soop.py` (Satellite Operation Outdoor
Planning, 9V1KG/soop): the Maidenhead grid-locator decoder `maiden2latlon`
with its helper `f_10_24`, the window optimizer `find_best_time`, and the
event aggregation/sorting step of `soop`.

Modelling conventions (shallow embedding):
* Python floats are modelled as exact rationals (`ℚ`); Python `int` as `ℤ`
  or `ℕ`.  All numeric values arising here are exactly representable.
* POSIX timestamps are rationals measured in seconds.
  `datetime.datetime.fromtimestamp` is strictly monotone in the timestamp
  (for a fixed-offset local timezone), and adding
  `timedelta(hours=h)` to a datetime adds `3600*h` seconds to the
  timestamp, so datetime comparisons in `find_best_time` are modelled
  directly on the underlying timestamps.
* Strings are modelled through their character lists.  The regex character
  class `\d` is modelled as the ASCII digits `0-9`.
* A Python function that can either return a value, return the failure
  value `(None, None)`, or raise an exception is modelled by an inductive
  result type with three corresponding cases.
-/

namespace Soop

/-! ## Character classes of the regexes in `maiden2latlon`

`re.match(r"([A-Ra-r]{2}\d\d)(([A-Za-z]{2})(\d\d)?){0,2}", loctr)` is an
unanchored prefix match: the trailing group may repeat zero times, so a
match exists if and only if the mandatory first group `[A-Ra-r]{2}\d\d`
matches at position 0, i.e. iff the string has at least 4 characters, the
first two in `A-R`/`a-r` and the next two digits.  `validFormat` is exactly
that condition. -/

/-- Membership in the regex character class `[A-Ra-r]`. -/
def isAR (c : Char) : Bool := ('A' ≤ c && c ≤ 'R') || ('a' ≤ c && c ≤ 'r')

/-- Membership in the regex character class `[A-Xa-x]`. -/
def isLX (c : Char) : Bool := ('A' ≤ c && c ≤ 'X') || ('a' ≤ c && c ≤ 'x')

/-- Membership in the regex character class `\d`, modelled as ASCII `0-9`. -/
def isDig (c : Char) : Bool := '0' ≤ c && c ≤ '9'

/-- Success of `re.match(r"([A-Ra-r]{2}\d\d)(([A-Za-z]{2})(\d\d)?){0,2}", ·)`:
since the pattern is unanchored at the end and its second group may match the
empty string, a match exists exactly when the mandatory first group matches
at the start of the string. -/
def validFormat : List Char → Bool
  | c0 :: c1 :: c2 :: c3 :: _ => isAR c0 && isAR c1 && isDig c2 && isDig c3
  | _ => false

/-- Model of `re.findall(r'([A-Xa-x]{2})', ·)`: left-to-right scan collecting
non-overlapping two-letter matches. -/
def findLetterPairs : List Char → List (Char × Char)
  | c1 :: c2 :: rest =>
    if isLX c1 && isLX c2 then (c1, c2) :: findLetterPairs rest
    else findLetterPairs (c2 :: rest)
  | _ => []

/-- Model of `re.findall(r'(\d)(\d)', ·)`: left-to-right scan collecting
non-overlapping two-digit matches. -/
def findDigitPairs : List Char → List (Char × Char)
  | c1 :: c2 :: rest =>
    if isDig c1 && isDig c2 then (c1, c2) :: findDigitPairs rest
    else findDigitPairs (c2 :: rest)
  | _ => []

/-- ASCII uppercasing of a single character, `x.upper()` for the ASCII
letters actually stored in the letter pairs. -/
def ascUpper (c : Char) : Char :=
  if 'a' ≤ c && c ≤ 'z' then Char.ofNat (c.toNat - 32) else c

/-- Value `ord(x.upper()) - ord("A")` of a letter-pair character. -/
def letterVal (c : Char) : ℕ := (ascUpper c).toNat - 65

/-- Value `int(x)` of a digit character. -/
def digitVal (c : Char) : ℕ := c.toNat - 48

/-- The extended-slice assignments `pairs[::2] = vals; pairs[1::2] = nums`:
letter-value pairs occupy the even positions, number pairs the odd positions.
(The assignments succeed only under the length condition checked in
`maiden2latlon`; this function gives the resulting list in that case.) -/
def interleave {α : Type} : List α → List α → List α
  | [], ys => ys
  | x :: xs, [] => x :: xs
  | x :: xs, y :: ys => x :: y :: interleave xs ys

/-- Function `f_10_24` from `soop.py`:
`10 ** (1 - int((j + 1) / 2)) * 24 ** int(-j / 2)`.
Python `int()` truncates toward zero, so for `j ≥ 0` we have
`int((j+1)/2) = (j+1)/2` (natural division) and `int(-j/2) = -(j/2)`
(natural division). -/
def f_10_24 (j : ℕ) : ℚ :=
  (10 : ℚ) ^ ((1 : ℤ) - ((j + 1) / 2 : ℕ)) * (24 : ℚ) ^ (-((j / 2 : ℕ) : ℤ))

/-- The accumulation loop
`for i, (x_1, x_2) in enumerate(pairs): lon += f_10_24(i)*x_1; lat += f_10_24(i)*x_2`,
with explicit loop counter; returns the final `(lon, lat)`. -/
def accLoop : ℕ → ℚ → ℚ → List (ℕ × ℕ) → ℚ × ℚ
  | _, lon, lat, [] => (lon, lat)
  | i, lon, lat, (x1, x2) :: rest =>
    accLoop (i + 1) (lon + f_10_24 i * x1) (lat + f_10_24 i * x2) rest

/-- Python `round()` to an integer: round half to even. -/
def pyRound (x : ℚ) : ℤ :=
  let f := ⌊x⌋
  let r := x - f
  if r < 1 / 2 then f
  else if 1 / 2 < r then f + 1
  else if f % 2 = 0 then f else f + 1

/-- Python `round(x, 6)`. -/
def round6 (x : ℚ) : ℚ := (pyRound (x * 1000000) : ℚ) / 1000000

/-- Letter pairs of a locator string, as value pairs
(`vals` in `maiden2latlon`). -/
def letterPairVals (l : List Char) : List (ℕ × ℕ) :=
  (findLetterPairs l).map (fun p => (letterVal p.1, letterVal p.2))

/-- Digit pairs of a locator string, as value pairs
(`nums` in `maiden2latlon`). -/
def digitPairVals (l : List Char) : List (ℕ × ℕ) :=
  (findDigitPairs l).map (fun p => (digitVal p.1, digitVal p.2))

/-- The interleaved `pairs` list of `maiden2latlon`. -/
def pairsOf (l : List Char) : List (ℕ × ℕ) :=
  interleave (letterPairVals l) (digitPairVals l)

/-- Possible outcomes of `maiden2latlon`: the explicit failure value
`(None, None)`, an uncaught `ValueError` (raised by the extended-slice
assignment `pairs[::2] = vals` when the number of letter pairs does not
match the number of even slots), or a returned `(lat, lon)` pair. -/
inductive DecodeResult where
  | invalid : DecodeResult
  | raised : DecodeResult
  | ok (lat lon : ℚ) : DecodeResult
deriving DecidableEq

/-- Function `maiden2latlon` from `soop.py`.  The extended-slice assignment
`pairs[::2] = vals` requires `len(vals)` to equal the number of even
positions of a list of length `len(vals) + len(nums)`, i.e.
`len(vals) = len(nums)` or `len(vals) = len(nums) + 1`; otherwise Python
raises `ValueError` (and `pairs[1::2] = nums` succeeds whenever the first
assignment did).  Both accumulators start at `-90`; at the end the
longitude is doubled and half of the last field step is added to both. -/
def maiden2latlon (loctr : String) : DecodeResult :=
  if validFormat loctr.data then
    if (letterPairVals loctr.data).length = (digitPairVals loctr.data).length ∨
        (letterPairVals loctr.data).length = (digitPairVals loctr.data).length + 1 then
      let pairs := pairsOf loctr.data
      let acc := accLoop 0 (-90) (-90) pairs
      .ok (round6 (acc.2 + f_10_24 (pairs.length - 1) / 2))
        (round6 (acc.1 * 2 + f_10_24 (pairs.length - 1) / 2))
    else .raised
  else .invalid

/-- Python `str.upper()` on a single character, which may expand to several
characters.  It is modelled exactly on the code points used in this
development: ASCII letters map by the usual ASCII table, and U+0131
(`'ı'`, LATIN SMALL LETTER DOTLESS I) maps to ASCII `'I'` per the Unicode
case mappings Python implements.  Other non-ASCII code points are left
unchanged (none are needed here). -/
def pyUpperChar (c : Char) : List Char :=
  if 'a' ≤ c && c ≤ 'z' then [Char.ofNat (c.toNat - 32)]
  else if c = 'ı' then ['I']
  else [c]

/-- Python `str.upper()` on a string (concatenation of the per-character
uppercasings). -/
def pyUpper (s : String) : String := ⟨(s.data.map pyUpperChar).flatten⟩

/-! ## Evaluation of `f_10_24` and `maiden2latlon` on concrete inputs -/

theorem f_10_24_zero : f_10_24 0 = 10 := by norm_num [f_10_24]

theorem f_10_24_one : f_10_24 1 = 1 := by norm_num [f_10_24]

theorem f_10_24_two : f_10_24 2 = 1 / 24 := by norm_num [f_10_24]

theorem decode_OJ11 : maiden2latlon "OJ11" = .ok (3 / 2) (205 / 2) := by
  have hv : validFormat "OJ11".data = true := by decide
  have hl : (letterPairVals "OJ11".data).length = (digitPairVals "OJ11".data).length := by
    decide
  have hp : pairsOf "OJ11".data = [(14, 9), (1, 1)] := by decide
  simp only [maiden2latlon, hv, hl, hp, if_true, eq_self_iff_true, true_or, if_pos]
  norm_num [accLoop, f_10_24_zero, f_10_24_one, round6, pyRound]

theorem decode_OJ11xi :
    maiden2latlon "OJ11xi" = .ok (1354167 / 1000000) (1663 / 16) := by
  have hv : validFormat "OJ11xi".data = true := by decide
  have hl : (letterPairVals "OJ11xi".data).length
      = (digitPairVals "OJ11xi".data).length + 1 := by decide
  have hp : pairsOf "OJ11xi".data = [(14, 9), (1, 1), (23, 8)] := by decide
  simp only [maiden2latlon, hv, hl, hp, if_true, eq_self_iff_true, or_true, if_pos]
  norm_num [accLoop, f_10_24_zero, f_10_24_one, f_10_24_two, round6, pyRound,
    Int.floor_eq_iff]

theorem decode_1234 : maiden2latlon "1234" = .invalid := by
  have hv : validFormat "1234".data = false := by decide
  simp [maiden2latlon, hv]

theorem decode_A : maiden2latlon "A" = .invalid := by
  have hv : validFormat "A".data = false := by decide
  simp [maiden2latlon, hv]

theorem decode_aa99ZZ99zz99 : maiden2latlon "aa99ZZ99zz99" = .raised := by
  have hv : validFormat "aa99ZZ99zz99".data = true := by decide
  have h1 : (letterPairVals "aa99ZZ99zz99".data).length = 1 := by decide
  have h2 : (digitPairVals "aa99ZZ99zz99".data).length = 3 := by decide
  simp [maiden2latlon, hv, h1, h2]

theorem decode_AA11ZZ99 : maiden2latlon "AA11ZZ99" = .raised := by
  have hv : validFormat "AA11ZZ99".data = true := by decide
  have h1 : (letterPairVals "AA11ZZ99".data).length = 1 := by decide
  have h2 : (digitPairVals "AA11ZZ99".data).length = 2 := by decide
  simp [maiden2latlon, hv, h1, h2]

theorem decode_II11 : maiden2latlon "II11" = .ok (-17 / 2) (-35 / 2) := by
  have hv : validFormat "II11".data = true := by decide
  have hl : (letterPairVals "II11".data).length = (digitPairVals "II11".data).length := by
    decide
  have hp : pairsOf "II11".data = [(8, 8), (1, 1)] := by decide
  simp only [maiden2latlon, hv, hl, hp, if_true, eq_self_iff_true, true_or, if_pos]
  norm_num [accLoop, f_10_24_zero, f_10_24_one, round6, pyRound]

theorem decode_dotless : maiden2latlon "ıı11" = .invalid := by
  have hv : validFormat "ıı11".data = false := by decide
  simp [maiden2latlon, hv]

theorem pyUpper_dotless : pyUpper "ıı11" = "II11" := by decide

/-! ## C2: behaviour on malformed locators -/

/-- C2 evaluation: the decoder returns the explicit failure value for
`"1234"` and `"A"`, but on `"aa99ZZ99zz99"` it raises `ValueError` instead
of returning `(None, None)`: the validation regex is an unanchored prefix
match whose refinement letter class `[A-Za-z]` is wider than the
extraction class `[A-Xa-x]`, so one letter pair meets three digit pairs
and the extended-slice assignment fails — contradicting the function's
documented contract of returning `None, None` on invalid input. -/
theorem maiden2latlon_malformed_eval :
    maiden2latlon "1234" = .invalid ∧
      maiden2latlon "A" = .invalid ∧
      maiden2latlon "aa99ZZ99zz99" = .raised :=
  ⟨decode_1234, decode_A, decode_aa99ZZ99zz99⟩

/-! ## C3: the angular step function -/

/-- Floor of a natural number divided by two, as rationals. -/
theorem floor_natCast_div_two (n : ℕ) : ⌊((n : ℚ)) / 2⌋ = ((n / 2 : ℕ) : ℤ) := by
  rw [Int.floor_eq_iff]
  constructor
  · rw [le_div_iff₀ (by norm_num : (0:ℚ) < 2)]
    exact_mod_cast (by omega : (n / 2) * 2 ≤ n)
  · rw [div_lt_iff₀ (by norm_num : (0:ℚ) < 2)]
    push_cast
    exact_mod_cast (by omega : n < (n / 2 + 1) * 2)

/-- C3 counterexample: at field index `i = 1`, the code's step is `1` degree
while the spec formula `10^(1 - ⌊(i+1)/2⌋) * 24^⌊-i/2⌋` (with mathematical
floor) gives `1/24`: Python `int()` truncates toward zero, so
`int(-1/2) = 0 ≠ ⌊-1/2⌋ = -1`. -/
theorem f_10_24_floor_formula_counterexample :
    f_10_24 1 ≠
      (10 : ℚ) ^ ((1 : ℤ) - ⌊(((1 : ℕ) : ℚ) + 1) / 2⌋) *
        (24 : ℚ) ^ ⌊-((1 : ℕ) : ℚ) / 2⌋ := by
  have h1 : ⌊(((1 : ℕ) : ℚ) + 1) / 2⌋ = 1 := by
    rw [Int.floor_eq_iff]
    norm_num
  have h2 : ⌊-((1 : ℕ) : ℚ) / 2⌋ = -1 := by
    rw [Int.floor_eq_iff]
    norm_num
  rw [f_10_24_one, h1, h2]
  norm_num

/-- C3 amended: for every field index `i ≥ 0`, the decoder's angular step is
`10^(1 - ⌊(i+1)/2⌋) * 24^(-⌊i/2⌋)` degrees — the exponent of 24 is the
negation of `⌊i/2⌋` (equivalently, `-i/2` truncated toward zero, which is
what Python's `int()` computes), not `⌊-i/2⌋`. -/
theorem f_10_24_eq_trunc_formula (i : ℕ) :
    f_10_24 i =
      (10 : ℚ) ^ ((1 : ℤ) - ⌊(((i : ℕ) : ℚ) + 1) / 2⌋) *
        (24 : ℚ) ^ (-⌊((i : ℕ) : ℚ) / 2⌋) := by
  have h1 : ⌊(((i : ℕ) : ℚ) + 1) / 2⌋ = (((i + 1) / 2 : ℕ) : ℤ) := by
    rw [show ((i : ℚ) + 1) = (((i + 1 : ℕ)) : ℚ) by push_cast; ring]
    exact floor_natCast_div_two _
  have h2 : ⌊((i : ℕ) : ℚ) / 2⌋ = ((i / 2 : ℕ) : ℤ) := floor_natCast_div_two i
  rw [f_10_24, h1, h2]

/-! ## C4: refinement consistency of nested locators -/

/-- C4 counterexample: the 4-character cell spans `f_10_24 1 = 1` degree of
latitude and `2 * f_10_24 1 = 2` degrees of longitude, but the longitudes of
`decode("OJ11")` and `decode("OJ11xi")` differ by `1.4375 ≥ 1`, which is not
less than the longitude half-width. -/
theorem refinement_halfwidth_counterexample :
    maiden2latlon "OJ11" = .ok (3 / 2) (205 / 2) ∧
    maiden2latlon "OJ11xi" = .ok (1354167 / 1000000) (1663 / 16) ∧
    ¬ (|(1354167 / 1000000 : ℚ) - 3 / 2| < f_10_24 1 / 2 ∧
        |(1663 / 16 : ℚ) - 205 / 2| < (2 * f_10_24 1) / 2) := by
  refine ⟨decode_OJ11, decode_OJ11xi, ?_⟩
  rw [f_10_24_one]
  rintro ⟨-, h2⟩
  rw [show (1663 / 16 : ℚ) - 205 / 2 = 23 / 16 by norm_num,
    abs_of_nonneg (by norm_num : (0:ℚ) ≤ 23 / 16)] at h2
  norm_num at h2

/-- C4 amended: the latitudes of `decode("OJ11")` and `decode("OJ11xi")`
differ by less than half the 4-character cell's latitude extent, but the
longitudes differ by `23/16 = 1.4375` degrees — less than the full
longitude extent (2 degrees) of the coarser cell, yet not less than its
half-width (1 degree). -/
theorem refinement_within_full_width :
    maiden2latlon "OJ11" = .ok (3 / 2) (205 / 2) ∧
    maiden2latlon "OJ11xi" = .ok (1354167 / 1000000) (1663 / 16) ∧
    |(1354167 / 1000000 : ℚ) - 3 / 2| < f_10_24 1 / 2 ∧
    |(1663 / 16 : ℚ) - 205 / 2| = 23 / 16 ∧
    |(1663 / 16 : ℚ) - 205 / 2| < 2 * f_10_24 1 ∧
    ¬ |(1663 / 16 : ℚ) - 205 / 2| < (2 * f_10_24 1) / 2 := by
  have e1 : |(1354167 / 1000000 : ℚ) - 3 / 2| = 145833 / 1000000 := by
    rw [show (1354167 / 1000000 : ℚ) - 3 / 2 = -(145833 / 1000000) by norm_num,
      abs_neg, abs_of_nonneg (by norm_num : (0:ℚ) ≤ 145833 / 1000000)]
  have e2 : |(1663 / 16 : ℚ) - 205 / 2| = 23 / 16 := by
    rw [show (1663 / 16 : ℚ) - 205 / 2 = 23 / 16 by norm_num,
      abs_of_nonneg (by norm_num : (0:ℚ) ≤ 23 / 16)]
  refine ⟨decode_OJ11, decode_OJ11xi, ?_, e2, ?_, ?_⟩ <;>
    (rw [f_10_24_one]; simp only [e1, e2]; norm_num)

/-! ## C6: coordinate-range machinery for `maiden2latlon` -/

theorem char_le_iff_toNat (a b : Char) : a ≤ b ↔ a.toNat ≤ b.toNat := Iff.rfl

theorem isLX_toNat {c : Char} (h : isLX c = true) :
    (65 ≤ c.toNat ∧ c.toNat ≤ 88) ∨ (97 ≤ c.toNat ∧ c.toNat ≤ 120) := by
  simp only [isLX, Bool.or_eq_true, Bool.and_eq_true, decide_eq_true_eq,
    char_le_iff_toNat] at h
  simpa using h

theorem isAR_toNat {c : Char} (h : isAR c = true) :
    (65 ≤ c.toNat ∧ c.toNat ≤ 82) ∨ (97 ≤ c.toNat ∧ c.toNat ≤ 114) := by
  simp only [isAR, Bool.or_eq_true, Bool.and_eq_true, decide_eq_true_eq,
    char_le_iff_toNat] at h
  simpa using h

theorem isDig_toNat {c : Char} (h : isDig c = true) :
    48 ≤ c.toNat ∧ c.toNat ≤ 57 := by
  simp only [isDig, Bool.and_eq_true, decide_eq_true_eq, char_le_iff_toNat] at h
  simpa using h

theorem char_ofNat_toNat {n : ℕ} (hv : n.isValidChar) : (Char.ofNat n).toNat = n := by
  simp [Char.ofNat, hv, Char.ofNatAux, Char.toNat, UInt32.toNat, UInt32.ofNat']

/-- On an ASCII lowercase letter, `ascUpper` subtracts 32 from the code. -/
theorem ascUpper_toNat_lower {c : Char} (h1 : 97 ≤ c.toNat) (h2 : c.toNat ≤ 122) :
    (ascUpper c).toNat = c.toNat - 32 := by
  have hcond : ('a' ≤ c && c ≤ 'z') = true := by
    simp only [Bool.and_eq_true, decide_eq_true_eq, char_le_iff_toNat]
    exact ⟨h1, h2⟩
  have hv : (c.toNat - 32).isValidChar := Or.inl (by omega)
  rw [ascUpper, if_pos hcond]
  exact char_ofNat_toNat hv

/-- On a character that is not an ASCII lowercase letter, `ascUpper` is the identity. -/
theorem ascUpper_of_not_lower {c : Char} (h : ¬ (97 ≤ c.toNat ∧ c.toNat ≤ 122)) :
    ascUpper c = c := by
  have ha : ('a' : Char).toNat = 97 := rfl
  have hz : ('z' : Char).toNat = 122 := rfl
  have hcond : ('a' ≤ c && c ≤ 'z') = false := by
    cases hb : ('a' ≤ c && c ≤ 'z') with
    | false => rfl
    | true =>
      exfalso
      obtain ⟨h1, h2⟩ := Bool.and_eq_true _ _ |>.mp hb
      rw [decide_eq_true_eq, char_le_iff_toNat] at h1 h2
      omega
  simp [ascUpper, hcond]

theorem letterVal_le_of_isLX {c : Char} (h : isLX c = true) : letterVal c ≤ 23 := by
  rcases isLX_toNat h with ⟨h1, h2⟩ | ⟨h1, h2⟩
  · rw [letterVal, ascUpper_of_not_lower (by omega)]
    omega
  · rw [letterVal, ascUpper_toNat_lower h1 (by omega)]
    omega

theorem letterVal_le_of_isAR {c : Char} (h : isAR c = true) : letterVal c ≤ 17 := by
  rcases isAR_toNat h with ⟨h1, h2⟩ | ⟨h1, h2⟩
  · rw [letterVal, ascUpper_of_not_lower (by omega)]
    omega
  · rw [letterVal, ascUpper_toNat_lower h1 (by omega)]
    omega

theorem digitVal_le_of_isDig {c : Char} (h : isDig c = true) : digitVal c ≤ 9 := by
  have := isDig_toNat h
  rw [digitVal]
  omega

/-- Every pair collected by `findLetterPairs` consists of `[A-Xa-x]`
characters. -/
theorem findLetterPairs_mem :
    ∀ (l : List Char) (p : Char × Char), p ∈ findLetterPairs l →
      isLX p.1 = true ∧ isLX p.2 = true := by
  intro l
  induction l using findLetterPairs.induct with
  | case1 c1 c2 rest hc ih =>
    intro p hp
    rw [findLetterPairs, if_pos hc] at hp
    rcases List.mem_cons.mp hp with rfl | hp
    · exact ⟨(Bool.and_eq_true _ _ |>.mp hc).1, (Bool.and_eq_true _ _ |>.mp hc).2⟩
    · exact ih p hp
  | case2 c1 c2 rest hc ih =>
    intro p hp
    rw [findLetterPairs, if_neg hc] at hp
    exact ih p hp
  | case3 l hl =>
    intro p hp
    rw [findLetterPairs.eq_def] at hp
    rcases l with _ | ⟨c1, _ | ⟨c2, rest⟩⟩ <;> simp at hp
    exact absurd rfl (hl c1 c2 rest)

/-- Interleaving adds the lengths. -/
theorem interleave_length {α : Type} :
    ∀ (xs ys : List α), (interleave xs ys).length = xs.length + ys.length := by
  intro xs
  induction xs with
  | nil => intro ys; simp [interleave]
  | cons x xs ih =>
    intro ys
    cases ys with
    | nil => simp [interleave]
    | cons y ys => simp [interleave, ih]; omega

/-- Mapping commutes with interleaving. -/
theorem interleave_map {α β : Type} (f : α → β) :
    ∀ (xs ys : List α),
      (interleave xs ys).map f = interleave (xs.map f) (ys.map f) := by
  intro xs
  induction xs with
  | nil => intro ys; simp [interleave]
  | cons x xs ih =>
    intro ys
    cases ys with
    | nil => simp [interleave]
    | cons y ys => simp [interleave, ih]

/-- An interleaving whose first list is nonempty starts with its head. -/
theorem interleave_cons {α : Type} (x : α) (xs ys : List α) :
    ∃ t, interleave (x :: xs) ys = x :: t := by
  cases ys with
  | nil => exact ⟨xs, rfl⟩
  | cons y ys => exact ⟨y :: interleave xs ys, rfl⟩

/-- Elementwise bound for an interleaving: when the two lists have the
lengths the slice assignment requires, even positions come from the first
list and odd positions from the second. -/
theorem interleave_get_le (a b : ℕ) :
    ∀ (A B : List ℕ), (∀ x ∈ A, x ≤ a) → (∀ x ∈ B, x ≤ b) →
      B.length ≤ A.length → A.length ≤ B.length + 1 →
      ∀ t (ht : t < (interleave A B).length),
        (interleave A B).get ⟨t, ht⟩ ≤ if t % 2 = 0 then a else b := by
  intro A
  induction A with
  | nil =>
    intro B hA hB hlen1 hlen2 t ht
    have hB0 : B = [] := by
      cases B with
      | nil => rfl
      | cons z zs =>
        simp only [List.length_cons, List.length_nil] at hlen1
        omega
    subst hB0
    simp [interleave] at ht
  | cons x xs ih =>
    intro B hA hB hlen1 hlen2 t ht
    cases B with
    | nil =>
      have hxs : xs = [] := by
        cases xs with
        | nil => rfl
        | cons z zs =>
          simp only [List.length_cons, List.length_nil] at hlen2
          omega
      subst hxs
      simp only [interleave] at ht ⊢
      have ht0 : t = 0 := by simp at ht; omega
      subst ht0
      simpa using hA x (by simp)
    | cons y ys =>
      simp only [interleave] at ht ⊢
      match t with
      | 0 => simpa using hA x (by simp)
      | 1 => simpa using hB y (by simp)
      | (u + 2) =>
        have hu : (u + 2) % 2 = u % 2 := by omega
        rw [List.get_cons_succ, List.get_cons_succ]
        have := ih ys (fun z hz => hA z (by simp [hz])) (fun z hz => hB z (by simp [hz]))
          (by simp at hlen1; omega) (by simp at hlen2; omega) u
          (by simp at ht ⊢; omega)
        rw [hu]
        exact this

/-- Weighted sum `Σ_t f_10_24 (j + t) * l_t`, the contribution of one
coordinate axis in the accumulation loop, starting at field index `j`. -/
def stepSum : ℕ → List ℕ → ℚ
  | _, [] => 0
  | j, x :: xs => f_10_24 j * x + stepSum (j + 1) xs

theorem f_10_24_pos (j : ℕ) : 0 < f_10_24 j :=
  mul_pos (zpow_pos (by norm_num) _) (zpow_pos (by norm_num) _)

theorem stepSum_nonneg : ∀ (j : ℕ) (l : List ℕ), 0 ≤ stepSum j l := by
  intro j l
  induction l generalizing j with
  | nil => simp [stepSum]
  | cons x xs ih =>
    rw [stepSum]
    exact add_nonneg (mul_nonneg (f_10_24_pos j).le (by positivity)) (ih (j + 1))

/-- Closed form of `f_10_24` at an even index. -/
theorem f_10_24_even (m : ℕ) :
    f_10_24 (2 * m) = (10 : ℚ) ^ ((1 : ℤ) - m) * (24 : ℚ) ^ (-(m : ℤ)) := by
  have h1 : (2 * m + 1) / 2 = m := by omega
  have h2 : (2 * m) / 2 = m := by omega
  rw [f_10_24, h1, h2]

/-- Closed form of `f_10_24` at an odd index. -/
theorem f_10_24_odd (m : ℕ) :
    f_10_24 (2 * m + 1) = (10 : ℚ) ^ (-(m : ℤ)) * (24 : ℚ) ^ (-(m : ℤ)) := by
  have h1 : (2 * m + 1 + 1) / 2 = m + 1 := by omega
  have h2 : (2 * m + 1) / 2 = m := by omega
  rw [f_10_24, h1, h2]
  congr 1
  congr 1
  push_cast
  ring

/-- The largest field value at index `j ≥ 1`: 9 for digit fields (odd
index), 23 for letter fields (even index). -/
def capAt (t : ℕ) : ℕ := if t % 2 = 1 then 9 else 23

/-- One telescoping step: a maximal field value times its step equals the
difference of consecutive steps. -/
theorem capAt_mul_f_10_24 (j : ℕ) (hj : 1 ≤ j) :
    (capAt j : ℚ) * f_10_24 j = f_10_24 (j - 1) - f_10_24 j := by
  obtain ⟨m, rfl | rfl⟩ := Nat.even_or_odd' j
  · -- j = 2 * m with m ≥ 1
    have hm : 1 ≤ m := by omega
    have hcap : capAt (2 * m) = 23 := by rw [capAt, if_neg (by omega)]
    have hsub : 2 * m - 1 = 2 * (m - 1) + 1 := by omega
    rw [hcap, hsub, f_10_24_even, f_10_24_odd]
    have e10 : ((10 : ℚ)) ^ (-((m - 1 : ℕ) : ℤ)) = (10 : ℚ) ^ (-(m : ℤ)) * 10 := by
      rw [show (-((m - 1 : ℕ) : ℤ)) = -(m : ℤ) + 1 by rw [Nat.cast_sub hm]; ring]
      rw [zpow_add_one₀ (by norm_num : (10 : ℚ) ≠ 0)]
    have e24 : ((24 : ℚ)) ^ (-((m - 1 : ℕ) : ℤ)) = (24 : ℚ) ^ (-(m : ℤ)) * 24 := by
      rw [show (-((m - 1 : ℕ) : ℤ)) = -(m : ℤ) + 1 by rw [Nat.cast_sub hm]; ring]
      rw [zpow_add_one₀ (by norm_num : (24 : ℚ) ≠ 0)]
    have e10b : ((10 : ℚ)) ^ ((1 : ℤ) - m) = (10 : ℚ) ^ (-(m : ℤ)) * 10 := by
      rw [show ((1 : ℤ) - (m : ℤ)) = -(m : ℤ) + 1 by ring]
      rw [zpow_add_one₀ (by norm_num : (10 : ℚ) ≠ 0)]
    rw [e10, e24, e10b]
    push_cast
    ring
  · -- j = 2 * m + 1
    have hcap : capAt (2 * m + 1) = 9 := by rw [capAt, if_pos (by omega)]
    have hsub : 2 * m + 1 - 1 = 2 * m := by omega
    rw [hcap, hsub, f_10_24_even, f_10_24_odd]
    have e10b : ((10 : ℚ)) ^ ((1 : ℤ) - m) = (10 : ℚ) ^ (-(m : ℤ)) * 10 := by
      rw [show ((1 : ℤ) - (m : ℤ)) = -(m : ℤ) + 1 by ring]
      rw [zpow_add_one₀ (by norm_num : (10 : ℚ) ≠ 0)]
    rw [e10b]
    push_cast
    ring

/-- Telescoping bound: a tail of fields starting at index `j ≥ 1` whose
values respect the per-index caps contributes at most
`f_10_24 (j-1) - f_10_24 (j + len - 1)`. -/
theorem stepSum_tele :
    ∀ (xs : List ℕ) (j : ℕ), 1 ≤ j →
      (∀ t (ht : t < xs.length), xs.get ⟨t, ht⟩ ≤ capAt (j + t)) →
      stepSum j xs ≤ f_10_24 (j - 1) - f_10_24 (j + xs.length - 1) := by
  intro xs
  induction xs with
  | nil =>
    intro j hj hcap
    simp only [stepSum, List.length_nil, Nat.add_zero]
    simp
  | cons x xs ih =>
    intro j hj hcap
    rw [stepSum]
    have hx : (x : ℚ) ≤ (capAt j : ℚ) := by
      exact_mod_cast (by simpa using hcap 0 (by simp))
    have h1 : f_10_24 j * (x : ℚ) ≤ f_10_24 (j - 1) - f_10_24 j := by
      calc f_10_24 j * (x : ℚ) ≤ f_10_24 j * (capAt j : ℚ) :=
            mul_le_mul_of_nonneg_left hx (f_10_24_pos j).le
        _ = (capAt j : ℚ) * f_10_24 j := mul_comm _ _
        _ = f_10_24 (j - 1) - f_10_24 j := capAt_mul_f_10_24 j hj
    have h2 : stepSum (j + 1) xs ≤ f_10_24 j - f_10_24 (j + xs.length) := by
      have := ih (j + 1) (by omega) (fun t ht => by
        have := hcap (t + 1) (by simpa using Nat.succ_lt_succ ht)
        simpa [Nat.add_comm, Nat.add_assoc, Nat.add_left_comm] using this)
      simpa using this
    have hlen : j + (x :: xs).length - 1 = j + xs.length := by
      simp only [List.length_cons]
      omega
    rw [hlen]
    linarith

/-- Top-level telescoping bound: the first field is a letter pair from
`A-R` (value at most 17) and subsequent fields respect the caps, so the
total accumulated offset stays below `180 - f_10_24 (len - 1)`. -/
theorem stepSum_le_total (x0 : ℕ) (xs : List ℕ) (h0 : x0 ≤ 17)
    (hcap : ∀ t (ht : t < xs.length), xs.get ⟨t, ht⟩ ≤ capAt (1 + t)) :
    stepSum 0 (x0 :: xs) ≤ 180 - f_10_24 ((x0 :: xs).length - 1) := by
  rw [stepSum]
  have h1 : f_10_24 0 * (x0 : ℚ) ≤ 170 := by
    rw [f_10_24_zero]
    have : (x0 : ℚ) ≤ 17 := by exact_mod_cast h0
    linarith
  have h2 : stepSum 1 xs ≤ f_10_24 0 - f_10_24 (1 + xs.length - 1) :=
    stepSum_tele xs 1 le_rfl hcap
  have hlen : 1 + xs.length - 1 = xs.length := by omega
  have hlen2 : (x0 :: xs).length - 1 = xs.length := by simp
  rw [hlen] at h2
  rw [hlen2, f_10_24_zero] at *
  linarith

/-- The accumulation loop in terms of per-axis weighted sums. -/
theorem accLoop_eq :
    ∀ (ps : List (ℕ × ℕ)) (i : ℕ) (lon lat : ℚ),
      accLoop i lon lat ps =
        (lon + stepSum i (ps.map Prod.fst), lat + stepSum i (ps.map Prod.snd)) := by
  intro ps
  induction ps with
  | nil => intro i lon lat; simp [accLoop, stepSum]
  | cons p rest ih =>
    intro i lon lat
    obtain ⟨x1, x2⟩ := p
    rw [accLoop, ih]
    simp only [List.map_cons, stepSum, Prod.mk.injEq]
    exact ⟨by ring, by ring⟩

/-- The rounding `pyRound` is within one half of its argument (lower bound). -/
theorem pyRound_ge (x : ℚ) : x - 1 / 2 ≤ (pyRound x : ℚ) := by
  have hfl : (⌊x⌋ : ℚ) ≤ x := Int.floor_le x
  have hfu : x < ⌊x⌋ + 1 := Int.lt_floor_add_one x
  rw [pyRound]
  split_ifs <;> push_cast <;> linarith

/-- The rounding `pyRound` is within one half of its argument (upper bound). -/
theorem pyRound_le (x : ℚ) : (pyRound x : ℚ) ≤ x + 1 / 2 := by
  have hfl : (⌊x⌋ : ℚ) ≤ x := Int.floor_le x
  have hfu : x < ⌊x⌋ + 1 := Int.lt_floor_add_one x
  rw [pyRound]
  split_ifs with h1 h2 <;> push_cast <;> [linarith; linarith; skip; skip] <;>
    (push_cast at h1 h2; linarith)

/-- The rounding `pyRound` is monotone. -/
theorem pyRound_mono {x y : ℚ} (h : x ≤ y) : pyRound x ≤ pyRound y := by
  rcases eq_or_lt_of_le h with rfl | hlt
  · exact le_rfl
  · have h1 : (pyRound x : ℚ) ≤ x + 1 / 2 := pyRound_le x
    have h2 : y - 1 / 2 ≤ (pyRound y : ℚ) := pyRound_ge y
    have : (pyRound x : ℚ) < (pyRound y : ℚ) + 1 := by linarith
    exact_mod_cast Int.lt_add_one_iff.mp (by exact_mod_cast this)

/-- The rounding `round6` is monotone. -/
theorem round6_mono {x y : ℚ} (h : x ≤ y) : round6 x ≤ round6 y := by
  rw [round6, round6]
  gcongr
  exact_mod_cast pyRound_mono
    (mul_le_mul_of_nonneg_right h (by norm_num : (0 : ℚ) ≤ 1000000))

theorem round6_neg90 : round6 (-90) = -90 := by
  norm_num [round6, pyRound]

theorem round6_90 : round6 90 = 90 := by
  norm_num [round6, pyRound]

theorem round6_neg180 : round6 (-180) = -180 := by
  norm_num [round6, pyRound]

theorem round6_180 : round6 180 = 180 := by
  norm_num [round6, pyRound]

/-- Every pair collected by `findDigitPairs` consists of digit characters. -/
theorem findDigitPairs_mem :
    ∀ (l : List Char) (p : Char × Char), p ∈ findDigitPairs l →
      isDig p.1 = true ∧ isDig p.2 = true := by
  intro l
  induction l using findDigitPairs.induct with
  | case1 c1 c2 rest hc ih =>
    intro p hp
    rw [findDigitPairs, if_pos hc] at hp
    rcases List.mem_cons.mp hp with rfl | hp
    · exact ⟨(Bool.and_eq_true _ _ |>.mp hc).1, (Bool.and_eq_true _ _ |>.mp hc).2⟩
    · exact ih p hp
  | case2 c1 c2 rest hc ih =>
    intro p hp
    rw [findDigitPairs, if_neg hc] at hp
    exact ih p hp
  | case3 l hl =>
    intro p hp
    rw [findDigitPairs.eq_def] at hp
    rcases l with _ | ⟨c1, _ | ⟨c2, rest⟩⟩ <;> simp at hp
    exact absurd rfl (hl c1 c2 rest)

theorem validFormat_elim {l : List Char} (h : validFormat l = true) :
    ∃ c0 c1 c2 c3 t, l = c0 :: c1 :: c2 :: c3 :: t ∧
      isAR c0 = true ∧ isAR c1 = true ∧ isDig c2 = true ∧ isDig c3 = true := by
  match l with
  | [] => simp [validFormat] at h
  | [c0] => simp [validFormat] at h
  | [c0, c1] => simp [validFormat] at h
  | [c0, c1, c2] => simp [validFormat] at h
  | c0 :: c1 :: c2 :: c3 :: t =>
    rw [validFormat] at h
    simp only [Bool.and_eq_true] at h
    exact ⟨c0, c1, c2, c3, t, rfl, h.1.1.1, h.1.1.2, h.1.2, h.2⟩

theorem isLX_of_isAR {c : Char} (h : isAR c = true) : isLX c = true := by
  have hAn : ('A' : Char).toNat = 65 := rfl
  have hXn : ('X' : Char).toNat = 88 := rfl
  have han : ('a' : Char).toNat = 97 := rfl
  have hxn : ('x' : Char).toNat = 120 := rfl
  have hb := isAR_toNat h
  simp only [isLX, Bool.or_eq_true, Bool.and_eq_true, decide_eq_true_eq,
    char_le_iff_toNat, hAn, hXn, han, hxn]
  omega

theorem findLetterPairs_cons_of_isLX {c0 c1 : Char} (rest : List Char)
    (h0 : isLX c0 = true) (h1 : isLX c1 = true) :
    findLetterPairs (c0 :: c1 :: rest) = (c0, c1) :: findLetterPairs rest := by
  rw [findLetterPairs, if_pos (by rw [h0, h1]; rfl)]

theorem letterPairVals_le (l : List Char) :
    ∀ p ∈ letterPairVals l, p.1 ≤ 23 ∧ p.2 ≤ 23 := by
  intro p hp
  obtain ⟨q, hq, rfl⟩ := List.mem_map.mp hp
  obtain ⟨h1, h2⟩ := findLetterPairs_mem l q hq
  exact ⟨letterVal_le_of_isLX h1, letterVal_le_of_isLX h2⟩

theorem digitPairVals_le (l : List Char) :
    ∀ p ∈ digitPairVals l, p.1 ≤ 9 ∧ p.2 ≤ 9 := by
  intro p hp
  obtain ⟨q, hq, rfl⟩ := List.mem_map.mp hp
  obtain ⟨h1, h2⟩ := findDigitPairs_mem l q hq
  exact ⟨digitVal_le_of_isDig h1, digitVal_le_of_isDig h2⟩

/-- Per-axis bound: for a valid locator, the weighted field sum along one
axis (obtained by projecting the interleaved pairs with `proj`) lies in
`[0, 180 - f_10_24 (len - 1)]`. -/
theorem stepSum_axis_bounds (s : String) (hval : validFormat s.data = true)
    (hg : (letterPairVals s.data).length = (digitPairVals s.data).length ∨
      (letterPairVals s.data).length = (digitPairVals s.data).length + 1)
    (proj : ℕ × ℕ → ℕ) (hproj : proj = Prod.fst ∨ proj = Prod.snd) :
    0 ≤ stepSum 0 ((pairsOf s.data).map proj) ∧
      stepSum 0 ((pairsOf s.data).map proj) ≤
        180 - f_10_24 ((pairsOf s.data).length - 1) := by
  obtain ⟨c0, c1, c2, c3, t, hl, h0, h1, h2, h3⟩ := validFormat_elim hval
  -- head structure of the letter pairs
  have hlets : letterPairVals s.data
      = (letterVal c0, letterVal c1) :: letterPairVals (c2 :: c3 :: t) := by
    rw [hl, letterPairVals, findLetterPairs_cons_of_isLX _ (isLX_of_isAR h0)
      (isLX_of_isAR h1), List.map_cons]
    rfl
  -- head structure of the interleaved pairs
  obtain ⟨T, hT⟩ := interleave_cons (letterVal c0, letterVal c1)
    (letterPairVals (c2 :: c3 :: t)) (digitPairVals s.data)
  have hpairs : pairsOf s.data = (letterVal c0, letterVal c1) :: T := by
    rw [pairsOf, hlets, hT]
  -- elementwise bounds for the projected interleaving
  have hA : ∀ x ∈ (letterPairVals s.data).map proj, x ≤ 23 := by
    intro x hx
    obtain ⟨p, hp, rfl⟩ := List.mem_map.mp hx
    rcases hproj with rfl | rfl
    · exact (letterPairVals_le s.data p hp).1
    · exact (letterPairVals_le s.data p hp).2
  have hB : ∀ x ∈ (digitPairVals s.data).map proj, x ≤ 9 := by
    intro x hx
    obtain ⟨p, hp, rfl⟩ := List.mem_map.mp hx
    rcases hproj with rfl | rfl
    · exact (digitPairVals_le s.data p hp).1
    · exact (digitPairVals_le s.data p hp).2
  have hlen1 : ((digitPairVals s.data).map proj).length
      ≤ ((letterPairVals s.data).map proj).length := by
    simp only [List.length_map]
    omega
  have hlen2 : ((letterPairVals s.data).map proj).length
      ≤ ((digitPairVals s.data).map proj).length + 1 := by
    simp only [List.length_map]
    omega
  have hfull : (pairsOf s.data).map proj
      = interleave ((letterPairVals s.data).map proj)
          ((digitPairVals s.data).map proj) := by
    rw [pairsOf, interleave_map]
  have hget := interleave_get_le 23 9 _ _ hA hB hlen1 hlen2
  rw [← hfull] at hget
  -- split off the head
  have hmap : (pairsOf s.data).map proj = proj (letterVal c0, letterVal c1) :: T.map proj := by
    rw [hpairs, List.map_cons]
  have hhead : proj (letterVal c0, letterVal c1) ≤ 17 := by
    rcases hproj with rfl | rfl
    · exact letterVal_le_of_isAR h0
    · exact letterVal_le_of_isAR h1
  have htail : ∀ u (hu : u < (T.map proj).length),
      (T.map proj).get ⟨u, hu⟩ ≤ capAt (1 + u) := by
    intro u hu
    have hu' : u + 1 < ((pairsOf s.data).map proj).length := by
      rw [hmap]
      simpa using Nat.succ_lt_succ hu
    have hgu := hget (u + 1) hu'
    have hcons : ((pairsOf s.data).map proj).get ⟨u + 1, hu'⟩ = (T.map proj).get ⟨u, hu⟩ := by
      have := hmap
      rw [List.get_of_eq this]
      exact List.get_cons_succ
    rw [hcons] at hgu
    by_cases hpar : (u + 1) % 2 = 0
    · rw [if_pos hpar] at hgu
      rw [capAt, if_neg (by omega)]
      exact hgu
    · rw [if_neg hpar] at hgu
      rw [capAt, if_pos (by omega)]
      exact hgu
  constructor
  · exact stepSum_nonneg 0 _
  · have := stepSum_le_total (proj (letterVal c0, letterVal c1)) (T.map proj) hhead htail
    rw [← hmap] at this
    have hlen3 : ((pairsOf s.data).map proj).length = (pairsOf s.data).length :=
      List.length_map _ _
    rw [hlen3] at this
    exact this

/-- C6 counterexample: the locator `"AA11ZZ99"` is accepted by the format
validation regex (which allows `[A-Za-z]` refinement letters and ignores
everything after a matching prefix), yet the decoder raises `ValueError`
instead of returning a coordinate, because pair extraction uses `[A-Xa-x]`
and drops the `ZZ` pair. -/
theorem valid_locator_range_counterexample :
    validFormat "AA11ZZ99".data = true ∧
      ¬ ∃ lat lon, maiden2latlon "AA11ZZ99" = .ok lat lon := by
  refine ⟨by decide, ?_⟩
  rintro ⟨lat, lon, h⟩
  rw [decode_AA11ZZ99] at h
  exact DecodeResult.noConfusion h

/-- C6 amended: whenever the decoder accepts a locator **and** returns a
coordinate pair (rather than raising the internal extraction error), the
latitude lies in `[-90, 90]` and the longitude in `[-180, 180]`. -/
theorem maiden2latlon_ok_in_range (s : String) (lat lon : ℚ)
    (hval : validFormat s.data = true)
    (hok : maiden2latlon s = .ok lat lon) :
    -90 ≤ lat ∧ lat ≤ 90 ∧ -180 ≤ lon ∧ lon ≤ 180 := by
  rw [maiden2latlon, if_pos hval] at hok
  by_cases hg : (letterPairVals s.data).length = (digitPairVals s.data).length ∨
      (letterPairVals s.data).length = (digitPairVals s.data).length + 1
  · rw [if_pos hg] at hok
    simp only [DecodeResult.ok.injEq] at hok
    obtain ⟨hlat, hlon⟩ := hok
    obtain ⟨hS1, hS1'⟩ := stepSum_axis_bounds s hval hg Prod.fst (Or.inl rfl)
    obtain ⟨hS2, hS2'⟩ := stepSum_axis_bounds s hval hg Prod.snd (Or.inr rfl)
    have hacc := accLoop_eq (pairsOf s.data) 0 (-90) (-90)
    have hf := f_10_24_pos ((pairsOf s.data).length - 1)
    set S1 := stepSum 0 ((pairsOf s.data).map Prod.fst) with hS1def
    set S2 := stepSum 0 ((pairsOf s.data).map Prod.snd) with hS2def
    set F := f_10_24 ((pairsOf s.data).length - 1) with hFdef
    have hlat' : lat = round6 ((-90 + S2) + F / 2) := by
      rw [← hlat, hacc]
    have hlon' : lon = round6 ((-90 + S1) * 2 + F / 2) := by
      rw [← hlon, hacc]
    have hlatlo : (-90 : ℚ) ≤ (-90 + S2) + F / 2 := by linarith
    have hlathi : (-90 + S2) + F / 2 ≤ 90 := by linarith
    have hlonlo : (-180 : ℚ) ≤ (-90 + S1) * 2 + F / 2 := by linarith
    have hlonhi : (-90 + S1) * 2 + F / 2 ≤ 180 := by linarith
    refine ⟨?_, ?_, ?_, ?_⟩
    · rw [hlat']
      have h := round6_mono hlatlo
      rw [round6_neg90] at h
      exact h
    · rw [hlat']
      have h := round6_mono hlathi
      rw [round6_90] at h
      exact h
    · rw [hlon']
      have h := round6_mono hlonlo
      rw [round6_neg180] at h
      exact h
    · rw [hlon']
      have h := round6_mono hlonhi
      rw [round6_180] at h
      exact h
  · rw [if_neg hg] at hok
    exact DecodeResult.noConfusion hok

/-- C6 witness at `"OJ11"`. -/
theorem maiden2latlon_ok_in_range_witness :
    validFormat "OJ11".data = true ∧
      maiden2latlon "OJ11" = .ok (3 / 2) (205 / 2) ∧
      (-90 ≤ (3 / 2 : ℚ) ∧ (3 / 2 : ℚ) ≤ 90 ∧
        -180 ≤ (205 / 2 : ℚ) ∧ (205 / 2 : ℚ) ≤ 180) :=
  ⟨by decide, decode_OJ11,
    maiden2latlon_ok_in_range "OJ11" (3 / 2) (205 / 2) (by decide) decode_OJ11⟩

/-! ## C10: case (in)sensitivity of the decoder -/

theorem ascUpper_idem (c : Char) : ascUpper (ascUpper c) = ascUpper c := by
  by_cases h : 97 ≤ c.toNat ∧ c.toNat ≤ 122
  · have hup := ascUpper_toNat_lower h.1 h.2
    exact ascUpper_of_not_lower (by omega)
  · rw [ascUpper_of_not_lower h, ascUpper_of_not_lower h]

theorem letterVal_ascUpper (c : Char) : letterVal (ascUpper c) = letterVal c := by
  rw [letterVal, letterVal, ascUpper_idem]

theorem isAR_iff_toNat (c : Char) :
    isAR c = true ↔ (65 ≤ c.toNat ∧ c.toNat ≤ 82) ∨ (97 ≤ c.toNat ∧ c.toNat ≤ 114) := by
  have hAn : ('A' : Char).toNat = 65 := rfl
  have hRn : ('R' : Char).toNat = 82 := rfl
  have han : ('a' : Char).toNat = 97 := rfl
  have hrn : ('r' : Char).toNat = 114 := rfl
  simp only [isAR, Bool.or_eq_true, Bool.and_eq_true, decide_eq_true_eq,
    char_le_iff_toNat, hAn, hRn, han, hrn]

theorem isLX_iff_toNat (c : Char) :
    isLX c = true ↔ (65 ≤ c.toNat ∧ c.toNat ≤ 88) ∨ (97 ≤ c.toNat ∧ c.toNat ≤ 120) := by
  have hXn : ('X' : Char).toNat = 88 := rfl
  have hxn : ('x' : Char).toNat = 120 := rfl
  simp only [isLX, Bool.or_eq_true, Bool.and_eq_true, decide_eq_true_eq,
    char_le_iff_toNat, show ('A' : Char).toNat = 65 from rfl, hXn,
    show ('a' : Char).toNat = 97 from rfl, hxn]

theorem isDig_iff_toNat (c : Char) :
    isDig c = true ↔ 48 ≤ c.toNat ∧ c.toNat ≤ 57 := by
  simp only [isDig, Bool.and_eq_true, decide_eq_true_eq, char_le_iff_toNat,
    show ('0' : Char).toNat = 48 from rfl, show ('9' : Char).toNat = 57 from rfl]

/-- Helper for transporting boolean class memberships along `ascUpper`. -/
theorem bool_eq_of_iff {a b : Bool} (h : a = true ↔ b = true) : a = b := by
  cases ha : a with
  | true => exact (h.mp ha).symm
  | false =>
    cases hb : b with
    | false => rfl
    | true => exact absurd (h.mpr hb) (by simp [ha])

theorem isAR_ascUpper (c : Char) : isAR (ascUpper c) = isAR c := by
  apply bool_eq_of_iff
  rw [isAR_iff_toNat, isAR_iff_toNat]
  by_cases h : 97 ≤ c.toNat ∧ c.toNat ≤ 122
  · rw [ascUpper_toNat_lower h.1 h.2]
    omega
  · rw [ascUpper_of_not_lower h]

theorem isLX_ascUpper (c : Char) : isLX (ascUpper c) = isLX c := by
  apply bool_eq_of_iff
  rw [isLX_iff_toNat, isLX_iff_toNat]
  by_cases h : 97 ≤ c.toNat ∧ c.toNat ≤ 122
  · rw [ascUpper_toNat_lower h.1 h.2]
    omega
  · rw [ascUpper_of_not_lower h]

theorem isDig_ascUpper (c : Char) : isDig (ascUpper c) = isDig c := by
  apply bool_eq_of_iff
  rw [isDig_iff_toNat, isDig_iff_toNat]
  by_cases h : 97 ≤ c.toNat ∧ c.toNat ≤ 122
  · rw [ascUpper_toNat_lower h.1 h.2]
    omega
  · rw [ascUpper_of_not_lower h]

theorem ascUpper_of_isDig {c : Char} (h : isDig c = true) : ascUpper c = c := by
  have := (isDig_iff_toNat c).mp h
  exact ascUpper_of_not_lower (by omega)

theorem validFormat_map_ascUpper (l : List Char) :
    validFormat (l.map ascUpper) = validFormat l := by
  match l with
  | [] => rfl
  | [c0] => rfl
  | [c0, c1] => rfl
  | [c0, c1, c2] => rfl
  | c0 :: c1 :: c2 :: c3 :: t =>
    simp only [List.map_cons, validFormat, isAR_ascUpper, isDig_ascUpper]

theorem findLetterPairs_map_ascUpper :
    ∀ l : List Char, findLetterPairs (l.map ascUpper)
      = (findLetterPairs l).map (fun p => (ascUpper p.1, ascUpper p.2)) := by
  intro l
  induction l using findLetterPairs.induct with
  | case1 c1 c2 rest hc ih =>
    obtain ⟨h1, h2⟩ := Bool.and_eq_true _ _ |>.mp hc
    simp only [List.map_cons]
    rw [findLetterPairs, if_pos (by rw [isLX_ascUpper, isLX_ascUpper, h1, h2]; rfl),
      findLetterPairs, if_pos hc, List.map_cons, ih]
  | case2 c1 c2 rest hc ih =>
    simp only [List.map_cons]
    rw [findLetterPairs, if_neg (by rw [isLX_ascUpper, isLX_ascUpper]; exact hc),
      findLetterPairs, if_neg hc]
    simpa using ih
  | case3 l hl =>
    rcases l with _ | ⟨c1, _ | ⟨c2, rest⟩⟩
    · rfl
    · rfl
    · exact absurd rfl (hl c1 c2 rest)

theorem findDigitPairs_map_ascUpper :
    ∀ l : List Char, findDigitPairs (l.map ascUpper) = findDigitPairs l := by
  intro l
  induction l using findDigitPairs.induct with
  | case1 c1 c2 rest hc ih =>
    obtain ⟨h1, h2⟩ := Bool.and_eq_true _ _ |>.mp hc
    simp only [List.map_cons]
    rw [findDigitPairs, if_pos (by rw [isDig_ascUpper, isDig_ascUpper, h1, h2]; rfl),
      findDigitPairs, if_pos hc, ih, ascUpper_of_isDig h1, ascUpper_of_isDig h2]
  | case2 c1 c2 rest hc ih =>
    simp only [List.map_cons]
    rw [findDigitPairs, if_neg (by rw [isDig_ascUpper, isDig_ascUpper]; exact hc),
      findDigitPairs, if_neg hc]
    simpa using ih
  | case3 l hl =>
    rcases l with _ | ⟨c1, _ | ⟨c2, rest⟩⟩
    · rfl
    · rfl
    · exact absurd rfl (hl c1 c2 rest)

theorem letterPairVals_map_ascUpper (l : List Char) :
    letterPairVals (l.map ascUpper) = letterPairVals l := by
  rw [letterPairVals, letterPairVals, findLetterPairs_map_ascUpper, List.map_map]
  apply List.map_congr_left
  intro p hp
  simp [letterVal_ascUpper]

theorem digitPairVals_map_ascUpper (l : List Char) :
    digitPairVals (l.map ascUpper) = digitPairVals l := by
  rw [digitPairVals, digitPairVals, findDigitPairs_map_ascUpper]

theorem flatten_map_singleton {α β : Type} (f : α → β) (l : List α) :
    (l.map fun a => [f a]).flatten = l.map f := by
  induction l with
  | nil => rfl
  | cons a l ih => simp [ih]

/-- On ASCII strings, Python's `upper()` is the per-character ASCII map. -/
theorem pyUpper_data_ascii (s : String) (h : ∀ c ∈ s.data, c.toNat < 128) :
    (pyUpper s).data = s.data.map ascUpper := by
  show ((s.data.map pyUpperChar).flatten) = s.data.map ascUpper
  have hchar : ∀ c ∈ s.data, pyUpperChar c = [ascUpper c] := by
    intro c hc
    rw [pyUpperChar, ascUpper]
    by_cases hl : ('a' ≤ c && c ≤ 'z') = true
    · rw [if_pos hl, if_pos hl]
    · rw [if_neg hl, if_neg hl, if_neg]
      intro hdot
      have : c.toNat = 305 := by rw [hdot]; rfl
      exact absurd (h c hc) (by omega)
  calc (s.data.map pyUpperChar).flatten
      = (s.data.map fun c => [ascUpper c]).flatten := by
        congr 1
        exact List.map_congr_left hchar
    _ = s.data.map ascUpper := flatten_map_singleton _ _

/-- C10 counterexample: `"ıı11"` (with U+0131 LATIN SMALL LETTER DOTLESS I)
is rejected by the decoder, but Python uppercases it to `"II11"`, which
decodes to a coordinate — so decoding is not invariant under `upper()` for
arbitrary strings. -/
theorem maiden2latlon_upper_counterexample :
    maiden2latlon "ıı11" ≠ maiden2latlon (pyUpper "ıı11") := by
  rw [pyUpper_dotless, decode_II11, decode_dotless]
  exact fun hcontra => DecodeResult.noConfusion hcontra

/-- C10 amended: on strings of ASCII characters (where Python's `upper()`
acts characterwise), decoding is invariant under uppercasing the input:
validation, pair extraction and the letter values all commute with the
ASCII case map.  (For non-ASCII input the claim fails, see the
counterexample with U+0131.) -/
theorem maiden2latlon_ascii_upper_invariant (s : String)
    (h : ∀ c ∈ s.data, c.toNat < 128) :
    maiden2latlon (pyUpper s) = maiden2latlon s := by
  rw [maiden2latlon, maiden2latlon, pyUpper_data_ascii s h,
    validFormat_map_ascUpper, letterPairVals_map_ascUpper,
    digitPairVals_map_ascUpper]
  rw [pairsOf, letterPairVals_map_ascUpper, digitPairVals_map_ascUpper, ← pairsOf]

/-- C10 witness at the mixed-case ASCII locator `"oJ11"`. -/
theorem maiden2latlon_ascii_upper_invariant_witness :
    (∀ c ∈ "oJ11".data, c.toNat < 128) ∧
      maiden2latlon (pyUpper "oJ11") = maiden2latlon "oJ11" :=
  ⟨by decide, maiden2latlon_ascii_upper_invariant "oJ11" (by decide)⟩

/-! ## The window optimizer `find_best_time`

An entry of `ev_sorted` is `[t_aos, t_dur, satellite.name]`: an AOS
timestamp (float, modelled as `ℚ` seconds), a duration in minutes
(Python `int`, modelled as `ℤ`), and the satellite name. -/

/-- One satellite pass event as stored in the time list. -/
structure Event where
  start : ℚ
  dur : ℤ
  sat : String
deriving DecidableEq

/-- The inner loop of `find_best_time` over `ev_sorted[i:]`: accumulate
`tti += ev_sorted[j_sat][1]` and `jtl += 1` for each event starting before
`tmax`. -/
def innerScan (tmax : ℚ) (l : List Event) : ℤ × ℕ :=
  l.foldl (fun p e => if e.start < tmax then (p.1 + e.dur, p.2 + 1) else p) (0, 0)

/-- Inner-loop result for anchor index `i`: the window end is
`ev_sorted[i][0] + delta` and the scan runs over `ev_sorted[i:]`. -/
def anchorStats (delta : ℚ) (evs : List Event) (i : ℕ) : ℤ × ℕ :=
  match evs[i]? with
  | some e => innerScan (e.start + delta) (evs.drop i)
  | none => (0, 0)

/-- One iteration of the outer loop of `find_best_time`, updating the state
`(ttd, itf, itl)`: on `tti > ttd` record `itf = i` and
`itl = itf + jtl - 1`, then `ttd = max(ttd, tti)`. -/
def fbtStep (delta : ℚ) (evs : List Event) (st : ℤ × ℕ × ℤ) (i : ℕ) : ℤ × ℕ × ℤ :=
  let p := anchorStats delta evs i
  if st.1 < p.1 then (max st.1 p.1, i, (i : ℤ) + p.2 - 1)
  else (max st.1 p.1, st.2.1, st.2.2)

/-- Function `find_best_time(op_h, ev_sorted)` from `soop.py`.  The operation period
`op_h` hours becomes `op_h * 3600` seconds of timestamp; the loop runs over
`i_sat in range(0, m_sats)` starting from `(0, 0, 0)`; the returned window
start is `ev_sorted[itf][0]` (`none` models the `IndexError` on an empty
list). -/
def find_best_time (op_h : ℤ) (evs : List Event) : Option (ℕ × ℤ × ℚ × ℤ) :=
  let delta : ℚ := (op_h : ℚ) * 3600
  let st := (List.range evs.length).foldl (fbtStep delta evs) (0, 0, 0)
  match evs[st.2.1]? with
  | some e => some (st.2.1, st.2.2, e.start, st.1)
  | none => none

/-- Specification-side anchored window total: the sum of the durations of
all events `j ≥ i` whose start time is before `events[i].start + delta`. -/
def windowSum (delta : ℚ) (evs : List Event) (i : ℕ) : ℤ :=
  match evs[i]? with
  | some e =>
    (((evs.drop i).filter (fun e2 => decide (e2.start < e.start + delta))).map
      Event.dur).sum
  | none => 0

/-- Specification-side anchored window event count. -/
def windowCount (delta : ℚ) (evs : List Event) (i : ℕ) : ℕ :=
  match evs[i]? with
  | some e =>
    ((evs.drop i).filter (fun e2 => decide (e2.start < e.start + delta))).length
  | none => 0

theorem innerScan_aux (tmax : ℚ) :
    ∀ (l : List Event) (a : ℤ) (b : ℕ),
      l.foldl (fun p e => if e.start < tmax then (p.1 + e.dur, p.2 + 1) else p) (a, b)
        = (a + ((l.filter (fun e => decide (e.start < tmax))).map Event.dur).sum,
            b + (l.filter (fun e => decide (e.start < tmax))).length) := by
  intro l
  induction l with
  | nil => intro a b; simp
  | cons e l ih =>
    intro a b
    by_cases he : e.start < tmax
    · rw [List.foldl_cons, if_pos he, ih,
        List.filter_cons_of_pos (by simpa using he)]
      simp only [List.map_cons, List.sum_cons, List.length_cons, Prod.mk.injEq]
      exact ⟨by ring, by omega⟩
    · rw [List.foldl_cons, if_neg he, ih,
        List.filter_cons_of_neg (by simpa using he)]

theorem innerScan_eq (tmax : ℚ) (l : List Event) :
    innerScan tmax l
      = (((l.filter (fun e => decide (e.start < tmax))).map Event.dur).sum,
          (l.filter (fun e => decide (e.start < tmax))).length) := by
  rw [innerScan, innerScan_aux]
  simp

theorem anchorStats_eq (delta : ℚ) (evs : List Event) (i : ℕ) :
    anchorStats delta evs i = (windowSum delta evs i, windowCount delta evs i) := by
  rw [anchorStats, windowSum, windowCount]
  cases h : evs[i]? with
  | none => rfl
  | some e =>
    dsimp only
    rw [innerScan_eq]

/-- For an in-range anchor with positive durations and a positive window
length, the anchored sum is at least the anchor's own duration (and the
count is at least one). -/
theorem windowSum_head_bound (delta : ℚ) (evs : List Event) (i : ℕ)
    (hdelta : 0 < delta) (hpos : ∀ e ∈ evs, 0 < e.dur)
    (hi : i < evs.length) (e : Event) (he : evs[i]? = some e) :
    e.dur ≤ windowSum delta evs i ∧ 0 < windowSum delta evs i ∧
      1 ≤ windowCount delta evs i := by
  have hget : evs.get ⟨i, hi⟩ = e := by
    have h2 : evs[i]? = some (evs.get ⟨i, hi⟩) := List.getElem?_eq_getElem hi
    rw [h2] at he
    exact Option.some.inj he
  have hdrop : evs.drop i = e :: evs.drop (i + 1) := by
    rw [List.drop_eq_get_cons hi, hget]
  have hcond : ((fun e2 : Event => decide (e2.start < e.start + delta)) e) = true := by
    simpa using hdelta
  have hfil : (evs.drop i).filter (fun e2 => decide (e2.start < e.start + delta))
      = e :: (evs.drop (i + 1)).filter (fun e2 => decide (e2.start < e.start + delta)) := by
    rw [hdrop]
    exact List.filter_cons_of_pos hcond
  have hrest : 0 ≤ (((evs.drop (i + 1)).filter
      (fun e2 => decide (e2.start < e.start + delta))).map Event.dur).sum := by
    apply List.sum_nonneg
    intro x hx
    obtain ⟨e2, he2, rfl⟩ := List.mem_map.mp hx
    have := List.mem_of_mem_filter he2
    exact (hpos e2 (List.mem_of_mem_drop this)).le
  have hedur : 0 < e.dur := by
    apply hpos
    rw [← hget]
    exact List.get_mem evs i hi
  rw [windowSum, windowCount, he]
  dsimp only
  rw [hfil]
  simp only [List.map_cons, List.sum_cons, List.length_cons]
  refine ⟨by linarith, by linarith, by omega⟩

/-- The anchored count never exceeds the number of events from the anchor
on. -/
theorem windowCount_le (delta : ℚ) (evs : List Event) (i : ℕ) :
    windowCount delta evs i ≤ evs.length - i := by
  rw [windowCount]
  cases h : evs[i]? with
  | none =>
    dsimp only
    omega
  | some e =>
    dsimp only
    calc ((evs.drop i).filter _).length ≤ (evs.drop i).length :=
          List.length_filter_le _ _
      _ = evs.length - i := List.length_drop i evs

/-- Loop invariant of `find_best_time`: after the outer loop has processed
anchors `0 … k-1` (with `1 ≤ k ≤` number of events), the state holds the
maximal anchored sum seen so far, attained first at `itf`, with
`itl = itf + count - 1`. -/
theorem fbt_loop_inv (delta : ℚ) (evs : List Event) (hdelta : 0 < delta)
    (hpos : ∀ e ∈ evs, 0 < e.dur) :
    ∀ k, 1 ≤ k → k ≤ evs.length →
      ∃ ttd itf itl,
        (List.range k).foldl (fbtStep delta evs) (0, 0, 0) = (ttd, itf, itl) ∧
        itf < k ∧
        ttd = windowSum delta evs itf ∧
        itl = (itf : ℤ) + windowCount delta evs itf - 1 ∧
        (∀ i < k, windowSum delta evs i ≤ ttd) ∧
        (∀ i < itf, windowSum delta evs i < ttd) := by
  intro k hk1
  induction k, hk1 using Nat.le_induction with
  | base =>
    intro hk2
    have h0 : 0 < evs.length := by omega
    obtain ⟨e, he⟩ : ∃ e, evs[0]? = some e := by
      rw [List.getElem?_eq_getElem h0]
      exact ⟨_, rfl⟩
    have hws := windowSum_head_bound delta evs 0 hdelta hpos h0 e he
    have hstep : (List.range 1).foldl (fbtStep delta evs) (0, 0, 0)
        = fbtStep delta evs (0, 0, 0) 0 := by
      rfl
    rw [hstep, fbtStep, anchorStats_eq]
    have hlt : (0 : ℤ) < windowSum delta evs 0 := hws.2.1
    rw [if_pos (by simpa using hlt)]
    refine ⟨windowSum delta evs 0, 0, (0 : ℤ) + windowCount delta evs 0 - 1, ?_, ?_, rfl, by
      push_cast; ring, ?_, ?_⟩
    · simp only [max_eq_right hlt.le]
      norm_num
    · omega
    · intro i hi
      interval_cases i
      exact le_rfl
    · intro i hi
      omega
  | succ k hk1 ih =>
    intro hk2
    obtain ⟨ttd, itf, itl, hst, hitf, httd, hitl, hmax, hstrict⟩ :=
      ih (by omega)
    have hkrange : (List.range (k + 1)).foldl (fbtStep delta evs) (0, 0, 0)
        = fbtStep delta evs ((List.range k).foldl (fbtStep delta evs) (0, 0, 0)) k := by
      rw [List.range_succ, List.foldl_append]
      rfl
    rw [hkrange, hst, fbtStep, anchorStats_eq]
    by_cases hlt : ttd < windowSum delta evs k
    · rw [if_pos (by simpa using hlt)]
      refine ⟨windowSum delta evs k, k, (k : ℤ) + windowCount delta evs k - 1,
        ?_, by omega, rfl, rfl, ?_, ?_⟩
      · simp only [max_eq_right hlt.le]
      · intro i hi
        rcases Nat.lt_succ_iff_lt_or_eq.mp hi with hi' | rfl
        · exact le_trans (hmax i hi') hlt.le
        · exact le_rfl
      · intro i hi
        exact lt_of_le_of_lt (hmax i (by omega)) hlt
    · rw [if_neg (by simpa using hlt)]
      push_neg at hlt
      refine ⟨ttd, itf, itl, ?_, by omega, httd, hitl, ?_, hstrict⟩
      · simp only [max_eq_left hlt]
      · intro i hi
        rcases Nat.lt_succ_iff_lt_or_eq.mp hi with hi' | rfl
        · exact hmax i hi'
        · exact hlt

/-- C1: on a non-empty start-sorted event sequence with positive durations
and an operation period of at least one hour, `find_best_time` returns the
window anchored at `itf` whose start is `events[itf].start`, whose total is
the anchored sum at `itf`, whose last index is `itf + count - 1`, and whose
total majorizes the anchored sum of every candidate anchor. -/
theorem find_best_time_returns_optimal_window (op_h : ℤ) (evs : List Event)
    (hne : evs ≠ [])
    (hsorted : evs.Pairwise (fun a b => a.start ≤ b.start))
    (hop : 1 ≤ op_h)
    (hpos : ∀ e ∈ evs, 0 < e.dur) :
    ∃ (itf : ℕ) (itl ttd : ℤ) (e : Event),
      find_best_time op_h evs = some (itf, itl, e.start, ttd) ∧
      evs[itf]? = some e ∧
      ttd = windowSum ((op_h : ℚ) * 3600) evs itf ∧
      itl = (itf : ℤ) + (windowCount ((op_h : ℚ) * 3600) evs itf : ℤ) - 1 ∧
      ∀ i < evs.length, windowSum ((op_h : ℚ) * 3600) evs i ≤ ttd := by
  have hdelta : (0 : ℚ) < (op_h : ℚ) * 3600 := by
    have h1 : (1 : ℚ) ≤ (op_h : ℚ) := by exact_mod_cast hop
    linarith
  have hlen : 1 ≤ evs.length := List.length_pos.mpr hne
  obtain ⟨ttd, itf, itl, hst, hitf, httd, hitl, hmax, hstrict⟩ :=
    fbt_loop_inv ((op_h : ℚ) * 3600) evs hdelta hpos evs.length hlen le_rfl
  obtain ⟨e, he⟩ : ∃ e, evs[itf]? = some e := ⟨_, List.getElem?_eq_getElem hitf⟩
  refine ⟨itf, itl, ttd, e, ?_, he, httd, hitl, fun i hi => hmax i hi⟩
  simp only [find_best_time]
  rw [hst]
  dsimp only
  rw [he]

/-- C5: ties between candidate anchors are broken toward the lower index:
the returned anchor attains the final total and every strictly smaller
anchor has a strictly smaller anchored sum (the recorded window is never
overwritten on equal totals). -/
theorem find_best_time_tiebreak_lowest_index (op_h : ℤ) (evs : List Event)
    (hne : evs ≠ [])
    (hsorted : evs.Pairwise (fun a b => a.start ≤ b.start))
    (hop : 1 ≤ op_h)
    (hpos : ∀ e ∈ evs, 0 < e.dur)
    (i1 i2 : ℕ) (h12 : i1 < i2) (hi2 : i2 < evs.length)
    (htie : windowSum ((op_h : ℚ) * 3600) evs i1
      = windowSum ((op_h : ℚ) * 3600) evs i2) :
    ∃ (itf : ℕ) (itl : ℤ) (ws : ℚ) (ttd : ℤ),
      find_best_time op_h evs = some (itf, itl, ws, ttd) ∧
      windowSum ((op_h : ℚ) * 3600) evs itf = ttd ∧
      (windowSum ((op_h : ℚ) * 3600) evs i1 = ttd → itf ≤ i1) ∧
      ∀ i < itf, windowSum ((op_h : ℚ) * 3600) evs i < ttd := by
  have hdelta : (0 : ℚ) < (op_h : ℚ) * 3600 := by
    have h1 : (1 : ℚ) ≤ (op_h : ℚ) := by exact_mod_cast hop
    linarith
  have hlen : 1 ≤ evs.length := List.length_pos.mpr hne
  obtain ⟨ttd, itf, itl, hst, hitf, httd, hitl, hmax, hstrict⟩ :=
    fbt_loop_inv ((op_h : ℚ) * 3600) evs hdelta hpos evs.length hlen le_rfl
  obtain ⟨e, he⟩ : ∃ e, evs[itf]? = some e := ⟨_, List.getElem?_eq_getElem hitf⟩
  refine ⟨itf, itl, e.start, ttd, ?_, httd.symm, ?_, hstrict⟩
  · simp only [find_best_time]
    rw [hst]
    dsimp only
    rw [he]
  · intro hattain
    by_contra hgt
    push_neg at hgt
    exact absurd hattain (ne_of_lt (hstrict i1 hgt))

/-- C9: implicit result invariant of `find_best_time` — the returned
indices are in range with `itf ≤ itl`, the total is positive and at least
the anchor's duration, and every event indexed inside the returned window
starts within `op_h` hours of the anchor's start. -/
theorem find_best_time_result_invariant (op_h : ℤ) (evs : List Event)
    (hne : evs ≠ [])
    (hsorted : evs.Pairwise (fun a b => a.start ≤ b.start))
    (hop : 1 ≤ op_h)
    (hpos : ∀ e ∈ evs, 0 < e.dur) :
    ∃ (itf : ℕ) (itl ttd : ℤ) (e : Event),
      find_best_time op_h evs = some (itf, itl, e.start, ttd) ∧
      evs[itf]? = some e ∧
      (0 : ℤ) ≤ (itf : ℤ) ∧ (itf : ℤ) ≤ itl ∧ itl < (evs.length : ℤ) ∧
      0 < ttd ∧ e.dur ≤ ttd ∧
      ∀ j : ℕ, itf ≤ j → (j : ℤ) ≤ itl →
        ∃ ej, evs[j]? = some ej ∧ ej.start < e.start + (op_h : ℚ) * 3600 := by
  have hdelta : (0 : ℚ) < (op_h : ℚ) * 3600 := by
    have h1 : (1 : ℚ) ≤ (op_h : ℚ) := by exact_mod_cast hop
    linarith
  have hlen : 1 ≤ evs.length := List.length_pos.mpr hne
  obtain ⟨ttd, itf, itl, hst, hitf, httd, hitl, hmax, hstrict⟩ :=
    fbt_loop_inv ((op_h : ℚ) * 3600) evs hdelta hpos evs.length hlen le_rfl
  obtain ⟨e, he⟩ : ∃ e, evs[itf]? = some e := ⟨_, List.getElem?_eq_getElem hitf⟩
  obtain ⟨hdurle, hwspos, hwcge⟩ :=
    windowSum_head_bound ((op_h : ℚ) * 3600) evs itf hdelta hpos hitf e he
  have hwcle := windowCount_le ((op_h : ℚ) * 3600) evs itf
  have hitl_lt : itl < (evs.length : ℤ) := by omega
  refine ⟨itf, itl, ttd, e, ?_, he, by omega, by omega, hitl_lt, by omega, by
    rw [httd]; exact hdurle, ?_⟩
  · simp only [find_best_time]
    rw [hst]
    dsimp only
    rw [he]
  · intro j hj1 hj2
    have hjlen : j < evs.length := by omega
    obtain ⟨ej, hej⟩ : ∃ ej, evs[j]? = some ej := ⟨_, List.getElem?_eq_getElem hjlen⟩
    refine ⟨ej, hej, ?_⟩
    by_contra hns
    push_neg at hns
    -- every event from index j on starts at or after the window end,
    -- so the anchored count at itf is bounded by j - itf
    have hgetj : evs.get ⟨j, hjlen⟩ = ej := by
      have h2 : evs[j]? = some (evs.get ⟨j, hjlen⟩) := List.getElem?_eq_getElem hjlen
      rw [h2] at hej
      exact Option.some.inj hej
    have hdropj : evs.drop j = ej :: evs.drop (j + 1) := by
      rw [List.drop_eq_get_cons hjlen, hgetj]
    have hmono : ∀ x ∈ evs.drop j, ej.start ≤ x.start := by
      intro x hx
      have hpw : (evs.drop j).Pairwise (fun a b => a.start ≤ b.start) :=
        hsorted.sublist (List.drop_sublist j evs)
      rw [hdropj] at hpw hx
      rcases List.mem_cons.mp hx with rfl | hx'
      · exact le_rfl
      · exact (List.pairwise_cons.mp hpw).1 x hx'
    have hfilnil : (evs.drop j).filter
        (fun e2 => decide (e2.start < e.start + (op_h : ℚ) * 3600)) = [] := by
      apply List.filter_eq_nil.mpr
      intro x hx
      simp only [decide_eq_true_eq, not_lt]
      exact le_trans hns (hmono x hx)
    have hsplit : evs.drop itf
        = (evs.drop itf).take (j - itf) ++ evs.drop j := by
      have h1 := List.take_append_drop (j - itf) (evs.drop itf)
      have h2 : (evs.drop itf).drop (j - itf) = evs.drop j := by
        rw [List.drop_drop]
        congr 1
        omega
      rw [h2] at h1
      exact h1.symm
    have hwcj : windowCount ((op_h : ℚ) * 3600) evs itf ≤ j - itf := by
      rw [windowCount, he]
      dsimp only
      rw [hsplit, List.filter_append, hfilnil, List.append_nil]
      calc (((evs.drop itf).take (j - itf)).filter _).length
          ≤ ((evs.drop itf).take (j - itf)).length := List.length_filter_le _ _
        _ ≤ j - itf := by
            rw [List.length_take]
            omega
    omega

/-- C1 witness on a concrete two-event sequence. -/
theorem find_best_time_returns_optimal_window_witness :
    ([⟨0, 10, "a"⟩, ⟨1800, 20, "b"⟩] : List Event) ≠ [] ∧
    ([⟨0, 10, "a"⟩, ⟨1800, 20, "b"⟩] : List Event).Pairwise
      (fun a b => a.start ≤ b.start) ∧
    (1 : ℤ) ≤ 1 ∧
    (∀ e ∈ ([⟨0, 10, "a"⟩, ⟨1800, 20, "b"⟩] : List Event), 0 < e.dur) ∧
    (∃ (itf : ℕ) (itl ttd : ℤ) (e : Event),
      find_best_time 1 [⟨0, 10, "a"⟩, ⟨1800, 20, "b"⟩] = some (itf, itl, e.start, ttd) ∧
      ([⟨0, 10, "a"⟩, ⟨1800, 20, "b"⟩] : List Event)[itf]? = some e ∧
      ttd = windowSum (((1 : ℤ) : ℚ) * 3600) [⟨0, 10, "a"⟩, ⟨1800, 20, "b"⟩] itf ∧
      itl = (itf : ℤ)
        + (windowCount (((1 : ℤ) : ℚ) * 3600) [⟨0, 10, "a"⟩, ⟨1800, 20, "b"⟩] itf : ℤ)
        - 1 ∧
      ∀ i < ([⟨0, 10, "a"⟩, ⟨1800, 20, "b"⟩] : List Event).length,
        windowSum (((1 : ℤ) : ℚ) * 3600) [⟨0, 10, "a"⟩, ⟨1800, 20, "b"⟩] i ≤ ttd) := by
  have h1 : ([⟨0, 10, "a"⟩, ⟨1800, 20, "b"⟩] : List Event) ≠ [] := by simp
  have h2 : ([⟨0, 10, "a"⟩, ⟨1800, 20, "b"⟩] : List Event).Pairwise
      (fun a b => a.start ≤ b.start) := by
    norm_num [List.pairwise_cons]
  have h3 : (1 : ℤ) ≤ 1 := le_rfl
  have h4 : ∀ e ∈ ([⟨0, 10, "a"⟩, ⟨1800, 20, "b"⟩] : List Event), 0 < e.dur := by
    intro e he
    rcases (by simpa using he :
      e = (⟨0, 10, "a"⟩ : Event) ∨ e = (⟨1800, 20, "b"⟩ : Event)) with rfl | rfl <;>
      norm_num
  exact ⟨h1, h2, h3, h4,
    find_best_time_returns_optimal_window 1 _ h1 h2 h3 h4⟩

/-- C5 witness: two disjoint single-event windows with equal totals; the
optimizer must keep the anchor at index 0. -/
theorem find_best_time_tiebreak_lowest_index_witness :
    ([⟨0, 10, "a"⟩, ⟨7200, 10, "b"⟩] : List Event) ≠ [] ∧
    ([⟨0, 10, "a"⟩, ⟨7200, 10, "b"⟩] : List Event).Pairwise
      (fun a b => a.start ≤ b.start) ∧
    (1 : ℤ) ≤ 1 ∧
    (∀ e ∈ ([⟨0, 10, "a"⟩, ⟨7200, 10, "b"⟩] : List Event), 0 < e.dur) ∧
    (0 : ℕ) < 1 ∧
    1 < ([⟨0, 10, "a"⟩, ⟨7200, 10, "b"⟩] : List Event).length ∧
    windowSum (((1 : ℤ) : ℚ) * 3600) [⟨0, 10, "a"⟩, ⟨7200, 10, "b"⟩] 0
      = windowSum (((1 : ℤ) : ℚ) * 3600) [⟨0, 10, "a"⟩, ⟨7200, 10, "b"⟩] 1 ∧
    (∃ (itf : ℕ) (itl : ℤ) (ws : ℚ) (ttd : ℤ),
      find_best_time 1 [⟨0, 10, "a"⟩, ⟨7200, 10, "b"⟩] = some (itf, itl, ws, ttd) ∧
      windowSum (((1 : ℤ) : ℚ) * 3600) [⟨0, 10, "a"⟩, ⟨7200, 10, "b"⟩] itf = ttd ∧
      (windowSum (((1 : ℤ) : ℚ) * 3600) [⟨0, 10, "a"⟩, ⟨7200, 10, "b"⟩] 0 = ttd →
        itf ≤ 0) ∧
      ∀ i < itf,
        windowSum (((1 : ℤ) : ℚ) * 3600) [⟨0, 10, "a"⟩, ⟨7200, 10, "b"⟩] i < ttd) := by
  have h1 : ([⟨0, 10, "a"⟩, ⟨7200, 10, "b"⟩] : List Event) ≠ [] := by simp
  have h2 : ([⟨0, 10, "a"⟩, ⟨7200, 10, "b"⟩] : List Event).Pairwise
      (fun a b => a.start ≤ b.start) := by
    norm_num [List.pairwise_cons]
  have h3 : (1 : ℤ) ≤ 1 := le_rfl
  have h4 : ∀ e ∈ ([⟨0, 10, "a"⟩, ⟨7200, 10, "b"⟩] : List Event), 0 < e.dur := by
    intro e he
    rcases (by simpa using he :
      e = (⟨0, 10, "a"⟩ : Event) ∨ e = (⟨7200, 10, "b"⟩ : Event)) with rfl | rfl <;>
      norm_num
  have h5 : (0 : ℕ) < 1 := Nat.zero_lt_one
  have h6 : 1 < ([⟨0, 10, "a"⟩, ⟨7200, 10, "b"⟩] : List Event).length := by simp
  have h7 : windowSum (((1 : ℤ) : ℚ) * 3600) [⟨0, 10, "a"⟩, ⟨7200, 10, "b"⟩] 0
      = windowSum (((1 : ℤ) : ℚ) * 3600) [⟨0, 10, "a"⟩, ⟨7200, 10, "b"⟩] 1 := by
    norm_num [windowSum, List.filter_cons, List.filter_nil]
  exact ⟨h1, h2, h3, h4, h5, h6, h7,
    find_best_time_tiebreak_lowest_index 1 _ h1 h2 h3 h4 0 1 h5 h6 h7⟩

/-- C9 witness on a concrete two-event sequence. -/
theorem find_best_time_result_invariant_witness :
    ([⟨0, 4, "x"⟩, ⟨600, 6, "y"⟩] : List Event) ≠ [] ∧
    ([⟨0, 4, "x"⟩, ⟨600, 6, "y"⟩] : List Event).Pairwise
      (fun a b => a.start ≤ b.start) ∧
    (1 : ℤ) ≤ 1 ∧
    (∀ e ∈ ([⟨0, 4, "x"⟩, ⟨600, 6, "y"⟩] : List Event), 0 < e.dur) ∧
    (∃ (itf : ℕ) (itl ttd : ℤ) (e : Event),
      find_best_time 1 [⟨0, 4, "x"⟩, ⟨600, 6, "y"⟩] = some (itf, itl, e.start, ttd) ∧
      ([⟨0, 4, "x"⟩, ⟨600, 6, "y"⟩] : List Event)[itf]? = some e ∧
      (0 : ℤ) ≤ (itf : ℤ) ∧ (itf : ℤ) ≤ itl ∧
      itl < (([⟨0, 4, "x"⟩, ⟨600, 6, "y"⟩] : List Event).length : ℤ) ∧
      0 < ttd ∧ e.dur ≤ ttd ∧
      ∀ j : ℕ, itf ≤ j → (j : ℤ) ≤ itl →
        ∃ ej, ([⟨0, 4, "x"⟩, ⟨600, 6, "y"⟩] : List Event)[j]? = some ej ∧
          ej.start < e.start + ((1 : ℤ) : ℚ) * 3600) := by
  have h1 : ([⟨0, 4, "x"⟩, ⟨600, 6, "y"⟩] : List Event) ≠ [] := by simp
  have h2 : ([⟨0, 4, "x"⟩, ⟨600, 6, "y"⟩] : List Event).Pairwise
      (fun a b => a.start ≤ b.start) := by
    norm_num [List.pairwise_cons]
  have h3 : (1 : ℤ) ≤ 1 := le_rfl
  have h4 : ∀ e ∈ ([⟨0, 4, "x"⟩, ⟨600, 6, "y"⟩] : List Event), 0 < e.dur := by
    intro e he
    rcases (by simpa using he :
      e = (⟨0, 4, "x"⟩ : Event) ∨ e = (⟨600, 6, "y"⟩ : Event)) with rfl | rfl <;>
      norm_num
  exact ⟨h1, h2, h3, h4,
    find_best_time_result_invariant 1 _ h1 h2 h3 h4⟩

/-- C8: on the three-event sequence at minutes 0, 30 and 65 (timestamps in
seconds) with durations 10, 20 and 5 minutes and a 1-hour window, the
optimizer picks the first two events with total duration 30. -/
theorem find_best_time_example_eval :
    find_best_time 1
      [⟨0, 10, "a"⟩, ⟨1800, 20, "b"⟩, ⟨3900, 5, "c"⟩] = some (0, 1, 0, 30) := by
  have hr : List.range 3 = [0, 1, 2] := by decide
  norm_num [find_best_time, hr, fbtStep, anchorStats, innerScan]

/-! ## C7: aggregation of per-satellite event lists (from `soop`)

The main loop builds `time_list` by extending it with each satellite's
event list and then computes `tls_sorted = sorted(time_list, key=get_key)`
with `get_key` the identity, i.e. a stable sort of the `[t_aos, t_dur,
name]` entries under Python's lexicographic list comparison. -/

/-- Python's lexicographic comparison of the `[t_aos, t_dur, name]` event
entries, as used by `sorted(time_list, key=get_key)` with the identity
key. -/
def evLe (a b : Event) : Prop :=
  a.start < b.start ∨
    (a.start = b.start ∧ (a.dur < b.dur ∨ (a.dur = b.dur ∧ a.sat ≤ b.sat)))

instance evLe.decRel : DecidableRel evLe := fun a b =>
  decidable_of_iff
    (a.start < b.start ∨
      (a.start = b.start ∧ (a.dur < b.dur ∨ (a.dur = b.dur ∧ a.sat ≤ b.sat))))
    Iff.rfl

instance evLe.total : IsTotal Event evLe := by
  constructor
  intro a b
  rcases lt_trichotomy a.start b.start with h | h | h
  · exact Or.inl (Or.inl h)
  · rcases lt_trichotomy a.dur b.dur with h2 | h2 | h2
    · exact Or.inl (Or.inr ⟨h, Or.inl h2⟩)
    · rcases le_total a.sat b.sat with h3 | h3
      · exact Or.inl (Or.inr ⟨h, Or.inr ⟨h2, h3⟩⟩)
      · exact Or.inr (Or.inr ⟨h.symm, Or.inr ⟨h2.symm, h3⟩⟩)
    · exact Or.inr (Or.inr ⟨h.symm, Or.inl h2⟩)
  · exact Or.inr (Or.inl h)

instance evLe.trans : IsTrans Event evLe := by
  constructor
  intro a b c hab hbc
  rcases hab with h1 | ⟨e1, h1⟩
  · rcases hbc with h2 | ⟨e2, h2⟩
    · exact Or.inl (lt_trans h1 h2)
    · exact Or.inl (e2 ▸ h1)
  · rcases hbc with h2 | ⟨e2, h2⟩
    · exact Or.inl (e1 ▸ h2)
    · refine Or.inr ⟨e1.trans e2, ?_⟩
      rcases h1 with d1 | ⟨f1, g1⟩
      · rcases h2 with d2 | ⟨f2, g2⟩
        · exact Or.inl (lt_trans d1 d2)
        · exact Or.inl (f2 ▸ d1)
      · rcases h2 with d2 | ⟨f2, g2⟩
        · exact Or.inl (f1 ▸ d2)
        · exact Or.inr ⟨f1.trans f2, le_trans g1 g2⟩

/-- The aggregation step of `soop`: concatenate the per-satellite event
lists in processing order, then sort the result by the event entries
(Python's `sorted` is a stable sort; the order is total, so any stable
sort yields the same list). -/
def aggregate (satLists : List (List Event)) : List Event :=
  List.insertionSort evLe satLists.flatten

/-- C7: for every collection of per-satellite event lists, in whatever
processing order, the aggregated sequence handed to the optimizer is
sorted (non-decreasing) in start time. -/
theorem aggregate_sorted_by_start (satLists : List (List Event)) :
    (aggregate satLists).Pairwise (fun a b => a.start ≤ b.start) := by
  have hs : (aggregate satLists).Pairwise evLe :=
    List.sorted_insertionSort evLe satLists.flatten
  refine hs.imp ?_
  intro a b hab
  rcases hab with h | ⟨h, -⟩
  · exact le_of_lt h
  · exact le_of_eq h

end Soop
